import Mathlib

/-!
Verification of the heap engine of the Heap Sort Visualizer.

The repository's algorithmic core is the Python class `AnimatedHeap`
(`src/sort.py`): an array-backed binary heap (index 0 is the root, the
children of index `i` sit at `2*i+1` and `2*i+2`) with a comparison
polarity (`is_min`), offering `build_heap`, `insert` and `delete_root`.
Each structural exchange additionally emits a rendering event (a
snapshot plus the pair of indices just swapped); here an operation
returns the resulting element list together with the list of emitted
highlight pairs, while the rendering/pacing side effects of the
observer are outside the model.

The two `while` loops (`_heapify_up`, `_heapify_down`) are embedded as
structurally recursive functions on an explicit iteration bound, which
is then instantiated with a provably sufficient value (the start index
for sift-up, the array length for sift-down), so that all definitions
compute by kernel reduction.
-/

set_option linter.unusedSectionVars false

namespace HeapViz

variable {α : Type} [LinearOrder α]

namespace AnimatedHeap

/-- `_compare(a, b)`: `a < b if self.is_min else a > b`. -/
def cmpv (is_min : Bool) (a b : α) : Bool :=
  if is_min then decide (a < b) else decide (b < a)

/-- Comparison of the values stored at two positions, `_compare(heap[i], heap[j])`.
Out-of-range positions yield `false` (in the source every such comparison is
guarded by a bounds check, so the branch is never reached there). -/
def cmpAt (is_min : Bool) (l : List α) (i j : Nat) : Bool :=
  match l[i]?, l[j]? with
  | some a, some b => cmpv is_min a b
  | _, _ => false

/-- The in-place exchange performed by `swap_and_visualize` (the emitted
highlight pair is recorded by the callers). Identity when a position is out
of range (never the case in the source's calls). -/
def swapHeap (l : List α) (i j : Nat) : List α :=
  match l[i]?, l[j]? with
  | some a, some b => (l.set i b).set j a
  | _, _ => l

/-- The candidate after the left-child check of `_heapify_down`:
`swap_idx = left if left < size and _compare(heap[left], heap[swap_idx]) else index`. -/
def cand1 (is_min : Bool) (l : List α) (index : Nat) : Nat :=
  if 2 * index + 1 < l.length && cmpAt is_min l (2 * index + 1) index then
    2 * index + 1
  else index

/-- The final `swap_idx` of one `_heapify_down` iteration: the right child
supersedes the current candidate only when it also wins the comparison. -/
def swapIdx (is_min : Bool) (l : List α) (index : Nat) : Nat :=
  if 2 * index + 2 < l.length && cmpAt is_min l (2 * index + 2) (cand1 is_min l index) then
    2 * index + 2
  else cand1 is_min l index

/-- The `while True` loop of `_heapify_down`, with an explicit iteration
bound `fuel`; each iteration moves `index` to a strictly larger in-range
position, so `l.length` iterations always suffice (see `heapifyDownGo_congr`). -/
def heapifyDownGo (is_min : Bool) : Nat → List α → Nat → List α × List (Nat × Nat)
  | 0, l, _ => (l, [])
  | fuel + 1, l, index =>
    let s := swapIdx is_min l index
    if s ≠ index then
      let p := heapifyDownGo is_min fuel (swapHeap l index s) s
      (p.1, (index, s) :: p.2)
    else (l, [])

/-- `_heapify_down(index)`: returns the new element list and the highlight
pairs emitted by `swap_and_visualize`, in order. -/
def heapify_down (is_min : Bool) (l : List α) (index : Nat) : List α × List (Nat × Nat) :=
  heapifyDownGo is_min l.length l index

/-- The `while index > 0` loop of `_heapify_up`, with an explicit iteration
bound `fuel`; each iteration moves `index` to its strictly smaller parent,
so `index` iterations always suffice. -/
def heapifyUpGo (is_min : Bool) : Nat → List α → Nat → List α × List (Nat × Nat)
  | 0, l, _ => (l, [])
  | fuel + 1, l, index =>
    if index > 0 then
      let parent := (index - 1) / 2
      if cmpAt is_min l index parent then
        let p := heapifyUpGo is_min fuel (swapHeap l index parent) parent
        (p.1, (index, parent) :: p.2)
      else (l, [])
    else (l, [])

/-- `_heapify_up(index)`: returns the new element list and the emitted
highlight pairs, in order. -/
def heapify_up (is_min : Bool) (l : List α) (index : Nat) : List α × List (Nat × Nat) :=
  heapifyUpGo is_min index l index

/-- The loop `for i in reversed(range(len(self.heap)//2)): self._heapify_down(i)`:
`buildLoop is_min l (n+1)` sifts down at index `n`, then at `n-1, …, 0`. -/
def buildLoop (is_min : Bool) : List α → Nat → List α × List (Nat × Nat)
  | l, 0 => (l, [])
  | l, n + 1 =>
    let p := heapify_down is_min l n
    let q := buildLoop is_min p.1 n
    (q.1, p.2 ++ q.2)

/-- `build_heap(arr)`: copies the input, emits one un-highlighted snapshot
event (`none`), then restores heap order bottom-up; exchange events are
tagged `some (i, j)`. -/
def build_heap (is_min : Bool) (arr : List α) : List α × List (Option (Nat × Nat)) :=
  let p := buildLoop is_min arr (arr.length / 2)
  (p.1, none :: p.2.map some)

/-- `insert(val)`: append, then sift up from the last index. -/
def insert (is_min : Bool) (l : List α) (val : α) : List α × List (Nat × Nat) :=
  heapify_up is_min (l ++ [val]) ((l ++ [val]).length - 1)

/-- `delete_root()`: on an empty heap return `None` (the `EmptyHeap` signal)
with no mutation and no event; otherwise record the root, pop the last
element, and if the heap is still non-empty overwrite position 0 with it and
sift down from 0.  Result: (returned value, new elements, emitted events). -/
def delete_root (is_min : Bool) (l : List α) : Option α × List α × List (Nat × Nat) :=
  match l with
  | [] => (none, [], [])
  | x :: xs =>
    let last := (x :: xs).getLast (List.cons_ne_nil x xs)
    let popped := (x :: xs).dropLast
    if popped.isEmpty then (some x, popped, [])
    else
      let p := heapify_down is_min (popped.set 0 last) 0
      (some x, p.1, p.2)

/-! Checked ("safe") variants: every subscript `heap[k]` is modelled as the
fallible lookup `l[k]?` and every subscript write as a guarded `set`, so an
out-of-range access makes the whole operation return `none`.  The theorems
below show each engine operation runs these to `some` of the total model,
i.e. the source never indexes out of range. -/

/-- Checked form of the exchange in `swap_and_visualize`: fails if either
position is out of range. -/
def swapChecked (l : List α) (i j : Nat) : Option (List α) :=
  match l[i]?, l[j]? with
  | some a, some b => some ((l.set i b).set j a)
  | _, _ => none

/-- `_heapify_down` with every element access checked.  The comparisons with
`heap[left]`/`heap[right]` and `heap[swap_idx]` are attempted exactly when the
source's `left < size` / `right < size` guards pass. -/
def heapifyDownSafeGo (is_min : Bool) :
    Nat → List α → Nat → Option (List α × List (Nat × Nat))
  | 0, l, _ => some (l, [])
  | fuel + 1, l, index =>
    Option.bind
      (if 2 * index + 1 < l.length then
        Option.bind l[2 * index + 1]? (fun a =>
          Option.bind l[index]? (fun b =>
            some (if cmpv is_min a b then 2 * index + 1 else index)))
      else some index) (fun s1 =>
    Option.bind
      (if 2 * index + 2 < l.length then
        Option.bind l[2 * index + 2]? (fun a =>
          Option.bind l[s1]? (fun b =>
            some (if cmpv is_min a b then 2 * index + 2 else s1)))
      else some s1) (fun s2 =>
    if s2 ≠ index then
      Option.bind (swapChecked l index s2) (fun l' =>
        Option.bind (heapifyDownSafeGo is_min fuel l' s2) (fun p =>
          some (p.1, (index, s2) :: p.2)))
    else some (l, [])))

/-- Checked `_heapify_down`. -/
def heapifyDownSafe (is_min : Bool) (l : List α) (index : Nat) :
    Option (List α × List (Nat × Nat)) :=
  heapifyDownSafeGo is_min l.length l index

/-- `_heapify_up` with every element access checked; `heap[index]` and
`heap[parent]` are read only under the `index > 0` guard. -/
def heapifyUpSafeGo (is_min : Bool) :
    Nat → List α → Nat → Option (List α × List (Nat × Nat))
  | 0, l, _ => some (l, [])
  | fuel + 1, l, index =>
    if index > 0 then
      Option.bind l[index]? (fun a =>
        Option.bind l[(index - 1) / 2]? (fun b =>
          if cmpv is_min a b then
            Option.bind (swapChecked l index ((index - 1) / 2)) (fun l' =>
              Option.bind (heapifyUpSafeGo is_min fuel l' ((index - 1) / 2)) (fun p =>
                some (p.1, (index, (index - 1) / 2) :: p.2)))
          else some (l, [])))
    else some (l, [])

/-- Checked `_heapify_up`. -/
def heapifyUpSafe (is_min : Bool) (l : List α) (index : Nat) :
    Option (List α × List (Nat × Nat)) :=
  heapifyUpSafeGo is_min index l index

/-- Checked `insert`. -/
def insertSafe (is_min : Bool) (l : List α) (val : α) :
    Option (List α × List (Nat × Nat)) :=
  heapifyUpSafe is_min (l ++ [val]) ((l ++ [val]).length - 1)

/-- Checked `build_heap` loop. -/
def buildSafeLoop (is_min : Bool) : List α → Nat → Option (List α × List (Nat × Nat))
  | l, 0 => some (l, [])
  | l, n + 1 =>
    Option.bind (heapifyDownSafe is_min l n) (fun p =>
      Option.bind (buildSafeLoop is_min p.1 n) (fun q =>
        some (q.1, p.2 ++ q.2)))

/-- Checked `build_heap`. -/
def buildSafe (is_min : Bool) (arr : List α) :
    Option (List α × List (Option (Nat × Nat))) :=
  Option.bind (buildSafeLoop is_min arr (arr.length / 2)) (fun p =>
    some (p.1, none :: p.2.map some))

/-- Checked `delete_root`: `heap[0]` is read, and position 0 is written, only
when the heap is non-empty (the source's `if not self.heap` / `if self.heap`
guards). -/
def delete_rootSafe (is_min : Bool) (l : List α) :
    Option (Option α × List α × List (Nat × Nat)) :=
  match l with
  | [] => some (none, [], [])
  | x :: xs =>
    Option.bind (x :: xs)[0]? (fun root =>
      Option.bind (x :: xs).getLast? (fun last =>
        if ((x :: xs).dropLast).isEmpty then some (some root, (x :: xs).dropLast, [])
        else
          Option.bind
            (if 0 < ((x :: xs).dropLast).length then
              some (((x :: xs).dropLast).set 0 last)
            else none) (fun l0 =>
          Option.bind (heapifyDownSafe is_min l0 0) (fun p =>
            some (some root, p.1, p.2)))))

end AnimatedHeap

/-- `favors is_min x y`: the heap-order comparison "in the heap's favor"
between a parent value `x` and a child value `y` — `x ≤ y` for MIN,
`x ≥ y` for MAX. -/
def favors (is_min : Bool) (x y : α) : Prop :=
  if is_min then x ≤ y else y ≤ x

instance (is_min : Bool) (x y : α) : Decidable (favors is_min x y) := by
  unfold favors
  split <;> infer_instance

/-- The heap-order invariant: for every index `i` with `0 ≤ i < length` and
each existing child index `c ∈ {2i+1, 2i+2}`, `elements[i] ≤ elements[c]`
for MIN and `elements[i] ≥ elements[c]` for MAX. -/
def heapOrdered (is_min : Bool) (l : List α) : Prop :=
  ∀ p c : Fin l.length, ((c : Nat) = 2 * (p : Nat) + 1 ∨ (c : Nat) = 2 * (p : Nat) + 2) →
    favors is_min (l.get p) (l.get c)

instance (is_min : Bool) (l : List α) [DecidableEq α] : Decidable (heapOrdered is_min l) := by
  unfold heapOrdered
  infer_instance

/-- Pointwise form of the invariant used in the proofs: if positions `p` and
`c` both hold values, the value at `p` is favored over the value at `c`. -/
def okAt (is_min : Bool) (l : List α) (p c : Nat) : Prop :=
  ∀ x y, l[p]? = some x → l[c]? = some y → favors is_min x y

/-- `c` is a child position of `p` in the array-as-tree encoding. -/
def isChild (p c : Nat) : Prop := c = 2 * p + 1 ∨ c = 2 * p + 2

/-- The heap-order invariant, phrased over fallible lookups (equivalent to
`heapOrdered`, see `heapOrdered_iff`). -/
def HO (is_min : Bool) (l : List α) : Prop :=
  ∀ p c : Nat, isChild p c → okAt is_min l p c

/-- Parent position in the array-as-tree encoding, `(index - 1) // 2`. -/
def parentIdx (k : Nat) : Nat := (k - 1) / 2

/-- `k` lies in the subtree rooted at `j`: iterating the parent map from `k`
reaches `j`. -/
def InSub (j k : Nat) : Prop := ∃ n : Nat, parentIdx^[n] k = j

/-- The public operations of the heap engine. -/
inductive Op (α : Type) where
  | build (arr : List α)
  | insert (val : α)
  | deleteRoot

/-- One public operation applied to the current element list. -/
def runOp (is_min : Bool) (l : List α) : Op α → List α
  | Op.build arr => (AnimatedHeap.build_heap is_min arr).1
  | Op.insert v => (AnimatedHeap.insert is_min l v).1
  | Op.deleteRoot => (AnimatedHeap.delete_root is_min l).2.1

/-- A sequence of operations applied in order, starting from `l`. -/
def runFrom (is_min : Bool) (l : List α) : List (Op α) → List α
  | [] => l
  | op :: ops => runFrom is_min (runOp is_min l op) ops

/-- A sequence of operations applied in order to the initially empty heap
(`__init__` sets `self.heap = []`). -/
def runOps (is_min : Bool) (ops : List (Op α)) : List α :=
  runFrom is_min [] ops

/-- `n` successive `delete_root` calls: the list of returned values (stopping
if a call signals `EmptyHeap`) together with the final element list. -/
def extractN (is_min : Bool) : Nat → List α → List α × List α
  | 0, l => ([], l)
  | n + 1, l =>
    match AnimatedHeap.delete_root is_min l with
    | (some r, l', _) => let p := extractN is_min n l'; (r :: p.1, p.2)
    | (none, l', _) => ([], l')

/-! ### Basic facts about the comparison -/

open AnimatedHeap

lemma cmp_self (is_min : Bool) (a : α) : cmpv is_min a a = false := by
  cases is_min <;> simp [cmpv]

lemma cmp_asymm {is_min : Bool} {a b : α} (h : cmpv is_min a b = true) :
    cmpv is_min b a = false := by
  cases is_min <;> simp [cmpv, not_lt] at h ⊢ <;> exact le_of_lt h

lemma cmp_trans {is_min : Bool} {a b c : α} (h1 : cmpv is_min a b = true)
    (h2 : cmpv is_min b c = true) : cmpv is_min a c = true := by
  cases is_min <;> simp [cmpv] at h1 h2 ⊢
  · exact lt_trans h2 h1
  · exact lt_trans h1 h2

lemma cmp_cross {is_min : Bool} {a b c : α} (h1 : cmpv is_min a c = true)
    (h2 : cmpv is_min b c = false) : cmpv is_min b a = false := by
  cases is_min <;> simp [cmpv, not_lt] at h1 h2 ⊢
  · exact le_trans h2 (le_of_lt h1)
  · exact le_trans (le_of_lt h1) h2

lemma favors_refl (is_min : Bool) (a : α) : favors is_min a a := by
  cases is_min <;> simp [favors]

lemma favors_trans {is_min : Bool} {a b c : α} (h1 : favors is_min a b)
    (h2 : favors is_min b c) : favors is_min a c := by
  cases is_min <;> simp [favors] at h1 h2 ⊢
  · exact le_trans h2 h1
  · exact le_trans h1 h2

lemma favors_of_cmp {is_min : Bool} {a b : α} (h : cmpv is_min a b = true) :
    favors is_min a b := by
  cases is_min <;> simp [cmpv, favors] at h ⊢ <;> exact le_of_lt h

lemma favors_of_not_cmp {is_min : Bool} {a b : α} (h : cmpv is_min a b = false) :
    favors is_min b a := by
  cases is_min <;> simp [cmpv, favors, not_lt] at h ⊢ <;> exact h

lemma cmpAt_eq {is_min : Bool} {l : List α} {i j : Nat} {x y : α}
    (hi : l[i]? = some x) (hj : l[j]? = some y) :
    cmpAt is_min l i j = cmpv is_min x y := by
  simp [cmpAt, hi, hj]

lemma cmpAt_bounds {is_min : Bool} {l : List α} {i j : Nat}
    (h : cmpAt is_min l i j = true) : i < l.length ∧ j < l.length := by
  unfold cmpAt at h
  cases hi : l[i]? with
  | none => simp [hi] at h
  | some x =>
    cases hj : l[j]? with
    | none => simp [hi, hj] at h
    | some y =>
      obtain ⟨h1, -⟩ := List.getElem?_eq_some.mp hi
      obtain ⟨h2, -⟩ := List.getElem?_eq_some.mp hj
      exact ⟨h1, h2⟩

lemma exists_getElem?_of_lt {l : List α} {i : Nat} (h : i < l.length) :
    ∃ x, l[i]? = some x :=
  ⟨l[i], List.getElem?_eq_getElem h⟩

/-! ### Facts about the exchange -/

lemma swapHeap_eq {l : List α} {i j : Nat} {a b : α}
    (hi : l[i]? = some a) (hj : l[j]? = some b) :
    swapHeap l i j = (l.set i b).set j a := by
  simp [swapHeap, hi, hj]

lemma swapHeap_length (l : List α) (i j : Nat) :
    (swapHeap l i j).length = l.length := by
  unfold swapHeap
  cases hi : l[i]? <;> cases hj : l[j]? <;> simp

lemma swapHeap_get_fst {l : List α} {i j : Nat} {a b : α}
    (hi : l[i]? = some a) (hj : l[j]? = some b) :
    (swapHeap l i j)[i]? = some b := by
  rw [swapHeap_eq hi hj]
  obtain ⟨hil, -⟩ := List.getElem?_eq_some.mp hi
  by_cases hij : i = j
  · subst hij
    rw [hi] at hj
    cases hj
    rw [List.getElem?_set_self (by simpa using hil)]
  · rw [List.getElem?_set_ne (fun h => hij h.symm),
      List.getElem?_set_self (by simpa using hil)]

lemma swapHeap_get_snd {l : List α} {i j : Nat} {a b : α}
    (hi : l[i]? = some a) (hj : l[j]? = some b) :
    (swapHeap l i j)[j]? = some a := by
  rw [swapHeap_eq hi hj]
  obtain ⟨hjl, -⟩ := List.getElem?_eq_some.mp hj
  rw [List.getElem?_set_self (by simpa using hjl)]

lemma swapHeap_get_other {l : List α} {i j k : Nat}
    (hk1 : k ≠ i) (hk2 : k ≠ j) :
    (swapHeap l i j)[k]? = l[k]? := by
  unfold swapHeap
  cases hi : l[i]? with
  | none => rfl
  | some a =>
    cases hj : l[j]? with
    | none => rfl
    | some b =>
      rw [List.getElem?_set_ne (fun h => hk2 h.symm),
        List.getElem?_set_ne (fun h => hk1 h.symm)]

lemma set_cons_perm : ∀ (xs : List α) (m : Nat) (a b : α), xs[m]? = some b →
    (b :: xs.set m a).Perm (a :: xs) := by
  intro xs
  induction xs with
  | nil => intro m a b h; simp at h
  | cons y ys ih =>
    intro m a b h
    cases m with
    | zero =>
      simp only [List.getElem?_cons_zero, Option.some.injEq] at h
      subst h
      simp only [List.set_cons_zero]
      exact List.Perm.swap _ _ _
    | succ m =>
      simp only [List.getElem?_cons_succ] at h
      have h1 : (b :: y :: ys.set m a).Perm (y :: b :: ys.set m a) :=
        List.Perm.swap y b _
      have h2 : (y :: b :: ys.set m a).Perm (y :: a :: ys) := (ih m a b h).cons y
      have h3 : (y :: a :: ys).Perm (a :: y :: ys) := List.Perm.swap a y ys
      exact h1.trans (h2.trans h3)

lemma set_set_perm : ∀ (l : List α) (i j : Nat) (a b : α),
    l[i]? = some a → l[j]? = some b → ((l.set i b).set j a).Perm l := by
  intro l
  induction l with
  | nil => intro i j a b hi _; simp at hi
  | cons x xs ih =>
    intro i j a b hi hj
    cases i with
    | zero =>
      have hxa : x = a := by simpa using hi
      cases j with
      | zero =>
        have hxb : x = b := by simpa using hj
        rw [hxa] at hxb
        subst hxb
        simp [hxa]
      | succ m =>
        simp only [List.getElem?_cons_succ] at hj
        rw [hxa]
        simpa using set_cons_perm xs m a b hj
    | succ n =>
      simp only [List.getElem?_cons_succ] at hi
      cases j with
      | zero =>
        have hxb : x = b := by simpa using hj
        rw [hxb]
        simpa using set_cons_perm xs n b a hi
      | succ m =>
        simp only [List.getElem?_cons_succ] at hj
        simpa using ((ih n m a b hi hj).cons x)

lemma swapHeap_perm (l : List α) (i j : Nat) : (swapHeap l i j).Perm l := by
  unfold swapHeap
  cases hi : l[i]? with
  | none => exact List.Perm.refl l
  | some a =>
    cases hj : l[j]? with
    | none => exact List.Perm.refl l
    | some b => exact set_set_perm l i j a b hi hj

lemma getElem?_dropLast {l : List α} {n : Nat} (h : n + 1 < l.length) :
    (l.dropLast)[n]? = l[n]? := by
  rw [List.dropLast_eq_take, List.getElem?_take]
  simp only [if_pos (by omega : n < l.length - 1)]

/-! ### The subtree relation -/

lemma parentIdx_le (k : Nat) : parentIdx k ≤ k := by
  unfold parentIdx; omega

lemma parentIdx_iterate_le : ∀ (n k : Nat), parentIdx^[n] k ≤ k := by
  intro n
  induction n with
  | zero => intro k; simp
  | succ n ih =>
    intro k
    rw [Function.iterate_succ_apply]
    exact le_trans (ih (parentIdx k)) (parentIdx_le k)

lemma InSub_refl (j : Nat) : InSub j j := ⟨0, rfl⟩

lemma InSub.le {j k : Nat} (h : InSub j k) : j ≤ k := by
  obtain ⟨n, hn⟩ := h
  calc j = parentIdx^[n] k := hn.symm
    _ ≤ k := parentIdx_iterate_le n k

lemma InSub.trans {j s k : Nat} (h1 : InSub j s) (h2 : InSub s k) : InSub j k := by
  obtain ⟨n, hn⟩ := h1
  obtain ⟨m, hm⟩ := h2
  exact ⟨n + m, by rw [Function.iterate_add_apply, hm, hn]⟩

lemma InSub_child {j k c : Nat} (hc : isChild k c) (h : InSub j k) : InSub j c := by
  obtain ⟨n, hn⟩ := h
  refine ⟨n + 1, ?_⟩
  rw [Function.iterate_succ_apply]
  have hp : parentIdx c = k := by
    unfold parentIdx
    rcases hc with h | h <;> omega
  rw [hp, hn]

lemma InSub_parent {j k : Nat} (h : InSub j k) (hne : k ≠ j) :
    InSub j (parentIdx k) := by
  obtain ⟨n, hn⟩ := h
  cases n with
  | zero => exact absurd hn hne
  | succ n => exact ⟨n, by rw [Function.iterate_succ_apply] at hn; exact hn⟩

lemma InSub_zero (k : Nat) : InSub 0 k := by
  induction k using Nat.strong_induction_on with
  | _ k ih =>
    cases k with
    | zero => exact InSub_refl 0
    | succ m =>
      obtain ⟨n, hn⟩ := ih (parentIdx (m + 1)) (by unfold parentIdx; omega)
      exact ⟨n + 1, by rw [Function.iterate_succ_apply, hn]⟩

lemma not_InSub_of_lt {j k : Nat} (h : k < j) : ¬ InSub j k :=
  fun hh => absurd hh.le (by omega)

lemma InSub_child_rev {j p c : Nat} (hc : isChild p c) (h : InSub j c)
    (hne : c ≠ j) : InSub j p := by
  have hp : parentIdx c = p := by
    unfold parentIdx
    rcases hc with h' | h' <;> omega
  have := InSub_parent h hne
  rwa [hp] at this

lemma not_InSub_sibling {j s c : Nat} (hs : isChild j s) (hc : isChild j c)
    (hne : c ≠ s) : ¬ InSub s c := by
  intro h
  have h1 : InSub s j := InSub_child_rev hc h hne
  have h2 : j < s := by rcases hs with h' | h' <;> omega
  exact absurd h1.le (by omega)

/-! ### Lifting the comparison facts to positions -/

lemma cmpAt_trans {is_min : Bool} {l : List α} {i j k : Nat}
    (h1 : cmpAt is_min l i j = true) (h2 : cmpAt is_min l j k = true) :
    cmpAt is_min l i k = true := by
  obtain ⟨hi, hj⟩ := cmpAt_bounds h1
  obtain ⟨-, hk⟩ := cmpAt_bounds h2
  obtain ⟨x, hx⟩ := exists_getElem?_of_lt hi
  obtain ⟨y, hy⟩ := exists_getElem?_of_lt hj
  obtain ⟨z, hz⟩ := exists_getElem?_of_lt hk
  rw [cmpAt_eq hx hy] at h1
  rw [cmpAt_eq hy hz] at h2
  rw [cmpAt_eq hx hz]
  exact cmp_trans h1 h2

lemma cmpAt_asymm {is_min : Bool} {l : List α} {i j : Nat}
    (h : cmpAt is_min l i j = true) : cmpAt is_min l j i = false := by
  obtain ⟨hi, hj⟩ := cmpAt_bounds h
  obtain ⟨x, hx⟩ := exists_getElem?_of_lt hi
  obtain ⟨y, hy⟩ := exists_getElem?_of_lt hj
  rw [cmpAt_eq hx hy] at h
  rw [cmpAt_eq hy hx]
  exact cmp_asymm h

lemma cmpAt_cross {is_min : Bool} {l : List α} {i j k : Nat}
    (h1 : cmpAt is_min l i k = true) (h2 : cmpAt is_min l j k = false)
    (hj : j < l.length) : cmpAt is_min l j i = false := by
  obtain ⟨hi, hk⟩ := cmpAt_bounds h1
  obtain ⟨x, hx⟩ := exists_getElem?_of_lt hi
  obtain ⟨y, hy⟩ := exists_getElem?_of_lt hj
  obtain ⟨z, hz⟩ := exists_getElem?_of_lt hk
  rw [cmpAt_eq hx hz] at h1
  rw [cmpAt_eq hy hz] at h2
  rw [cmpAt_eq hy hx]
  exact cmp_cross h1 h2

/-! ### Analysis of the `swap_idx` selection -/

lemma cand1_cases (is_min : Bool) (l : List α) (i : Nat) :
    cand1 is_min l i = i ∨
      (cand1 is_min l i = 2 * i + 1 ∧ 2 * i + 1 < l.length ∧
        cmpAt is_min l (2 * i + 1) i = true) := by
  unfold cand1
  by_cases h : (2 * i + 1 < l.length && cmpAt is_min l (2 * i + 1) i) = true
  · rw [if_pos h]
    rw [Bool.and_eq_true, decide_eq_true_eq] at h
    exact Or.inr ⟨rfl, h.1, h.2⟩
  · rw [if_neg h]
    exact Or.inl rfl

/-- When `_heapify_down` decides to exchange: the chosen position is a child
of `index`, it is in range, its value strictly precedes the value at `index`,
and no other in-range child of `index` strictly precedes it. -/
lemma swapIdx_spec {is_min : Bool} {l : List α} {i : Nat}
    (h : swapIdx is_min l i ≠ i) :
    isChild i (swapIdx is_min l i) ∧ swapIdx is_min l i < l.length ∧
      cmpAt is_min l (swapIdx is_min l i) i = true ∧
      (∀ c, isChild i c → c < l.length → c ≠ swapIdx is_min l i →
        cmpAt is_min l c (swapIdx is_min l i) = false) := by
  unfold swapIdx at *
  by_cases hR : (2 * i + 2 < l.length &&
      cmpAt is_min l (2 * i + 2) (cand1 is_min l i)) = true
  · rw [if_pos hR] at *
    rw [Bool.and_eq_true, decide_eq_true_eq] at hR
    obtain ⟨hRlen, hRc⟩ := hR
    rcases cand1_cases is_min l i with hc | ⟨hc, hLlen, hLc⟩
    · rw [hc] at hRc
      refine ⟨Or.inr rfl, hRlen, hRc, ?_⟩
      intro c hcc hclen hcne
      have hcL : c = 2 * i + 1 := by
        rcases hcc with h' | h' <;> omega
      subst hcL
      have hL0 : cmpAt is_min l (2 * i + 1) i = false := by
        cases hcmp : cmpAt is_min l (2 * i + 1) i
        · rfl
        · exfalso
          unfold cand1 at hc
          rw [if_pos (by rw [Bool.and_eq_true, decide_eq_true_eq]; exact ⟨hclen, hcmp⟩)] at hc
          omega
      exact cmpAt_cross hRc hL0 hclen
    · rw [hc] at hRc
      refine ⟨Or.inr rfl, hRlen, cmpAt_trans hRc hLc, ?_⟩
      intro c hcc hclen hcne
      have hcL : c = 2 * i + 1 := by
        rcases hcc with h' | h' <;> omega
      subst hcL
      exact cmpAt_asymm hRc
  · rw [if_neg hR] at *
    rcases cand1_cases is_min l i with hc | ⟨hc, hLlen, hLc⟩
    · exact absurd hc h
    · rw [hc] at h ⊢
      refine ⟨Or.inl rfl, hLlen, hLc, ?_⟩
      intro c hcc hclen hcne
      have hcR : c = 2 * i + 2 := by
        rcases hcc with h' | h' <;> omega
      subst hcR
      cases hcmp : cmpAt is_min l (2 * i + 2) (2 * i + 1)
      · rfl
      · rw [hc] at hR
        rw [Bool.and_eq_true, decide_eq_true_eq] at hR
        exact absurd ⟨hclen, hcmp⟩ hR

lemma swapIdx_child_bounds {is_min : Bool} {l : List α} {i : Nat}
    (h : swapIdx is_min l i ≠ i) :
    i < swapIdx is_min l i ∧ i < l.length := by
  obtain ⟨hchild, hlen, -, -⟩ := swapIdx_spec h
  rcases hchild with h' | h' <;> omega

/-- When `_heapify_down` stops: no in-range child strictly precedes `index`. -/
lemma swapIdx_eq_self {is_min : Bool} {l : List α} {i : Nat}
    (h : swapIdx is_min l i = i) :
    ∀ c, isChild i c → c < l.length → cmpAt is_min l c i = false := by
  intro c hcc hclen
  unfold swapIdx at h
  by_cases hR : (2 * i + 2 < l.length &&
      cmpAt is_min l (2 * i + 2) (cand1 is_min l i)) = true
  · rw [if_pos hR] at h
    omega
  · rw [if_neg hR] at h
    rcases cand1_cases is_min l i with hc | ⟨hc, -, -⟩
    · rw [Bool.and_eq_true, decide_eq_true_eq] at hR
      rcases hcc with h' | h'
      · subst h'
        unfold cand1 at hc
        by_cases hb : (2 * i + 1 < l.length && cmpAt is_min l (2 * i + 1) i) = true
        · rw [if_pos hb] at hc
          omega
        · rw [Bool.and_eq_true, decide_eq_true_eq] at hb
          cases hcmp : cmpAt is_min l (2 * i + 1) i
          · rfl
          · exact absurd ⟨hclen, hcmp⟩ hb
      · subst h'
        cases hcmp : cmpAt is_min l (2 * i + 2) i
        · rfl
        · rw [hc] at hR
          exact absurd ⟨hclen, hcmp⟩ hR
    · rw [hc] at h
      omega

lemma swapIdx_of_le {is_min : Bool} {l : List α} {i : Nat}
    (h : l.length ≤ i) : swapIdx is_min l i = i := by
  have h1 : cand1 is_min l i = i := by
    unfold cand1
    rw [if_neg]
    simp only [Bool.and_eq_true, decide_eq_true_eq, not_and]
    omega
  unfold swapIdx
  rw [h1, if_neg]
  simp only [Bool.and_eq_true, decide_eq_true_eq, not_and]
  omega

/-! ### Fuel congruence and unfolding equations for the loops -/

lemma heapifyDownGo_congr {is_min : Bool} :
    ∀ (f1 f2 : Nat) (l : List α) (i : Nat), l.length ≤ f1 + i → l.length ≤ f2 + i →
      heapifyDownGo is_min f1 l i = heapifyDownGo is_min f2 l i := by
  intro f1
  induction f1 with
  | zero =>
    intro f2 l i h1 h2
    cases f2 with
    | zero => rfl
    | succ g =>
      simp only [heapifyDownGo]
      rw [if_neg]
      simp only [ne_eq, not_not]
      exact swapIdx_of_le (by omega)
  | succ f ih =>
    intro f2 l i h1 h2
    cases f2 with
    | zero =>
      simp only [heapifyDownGo]
      rw [if_neg]
      simp only [ne_eq, not_not]
      exact swapIdx_of_le (by omega)
    | succ g =>
      simp only [heapifyDownGo]
      by_cases hs : swapIdx is_min l i ≠ i
      · rw [if_pos hs, if_pos hs]
        obtain ⟨hlt, -⟩ := swapIdx_child_bounds hs
        have hlen : (swapHeap l i (swapIdx is_min l i)).length ≤ f + swapIdx is_min l i := by
          rw [swapHeap_length]; omega
        have hlen2 : (swapHeap l i (swapIdx is_min l i)).length ≤ g + swapIdx is_min l i := by
          rw [swapHeap_length]; omega
        rw [ih g _ _ hlen hlen2]
      · rw [if_neg hs, if_neg hs]

lemma heapify_down_eq_go {is_min : Bool} {l : List α} {i fuel : Nat}
    (h : l.length ≤ fuel + i) :
    heapify_down is_min l i = heapifyDownGo is_min fuel l i :=
  heapifyDownGo_congr l.length fuel l i (by omega) h

/-- One-step unfolding of `_heapify_down` in the exchanging case. -/
lemma heapify_down_step {is_min : Bool} {l : List α} {i : Nat}
    (h : swapIdx is_min l i ≠ i) :
    heapify_down is_min l i =
      ((heapify_down is_min (swapHeap l i (swapIdx is_min l i)) (swapIdx is_min l i)).1,
        (i, swapIdx is_min l i) ::
          (heapify_down is_min (swapHeap l i (swapIdx is_min l i)) (swapIdx is_min l i)).2) := by
  obtain ⟨hlt, hi⟩ := swapIdx_child_bounds h
  obtain ⟨-, hslen, -, -⟩ := swapIdx_spec h
  have hpos : 0 < l.length := by omega
  obtain ⟨k, hk⟩ : ∃ k, l.length = k + 1 := ⟨l.length - 1, by omega⟩
  unfold heapify_down
  rw [hk]
  simp only [heapifyDownGo, if_pos h]
  have : heapifyDownGo is_min k (swapHeap l i (swapIdx is_min l i)) (swapIdx is_min l i) =
      heapifyDownGo is_min (swapHeap l i (swapIdx is_min l i)).length
        (swapHeap l i (swapIdx is_min l i)) (swapIdx is_min l i) := by
    apply heapifyDownGo_congr <;> rw [swapHeap_length] <;> omega
  rw [this]

/-- One-step unfolding of `_heapify_down` in the stopping case. -/
lemma heapify_down_stop {is_min : Bool} {l : List α} {i : Nat}
    (h : swapIdx is_min l i = i) :
    heapify_down is_min l i = (l, []) := by
  unfold heapify_down
  cases hl : l.length with
  | zero => rfl
  | succ k =>
    simp only [heapifyDownGo]
    rw [if_neg]
    simp only [ne_eq, not_not]
    exact h

lemma heapifyUpGo_congr {is_min : Bool} :
    ∀ (f1 f2 : Nat) (l : List α) (i : Nat), i ≤ f1 → i ≤ f2 →
      heapifyUpGo is_min f1 l i = heapifyUpGo is_min f2 l i := by
  intro f1
  induction f1 with
  | zero =>
    intro f2 l i h1 h2
    have : i = 0 := by omega
    subst this
    cases f2 with
    | zero => rfl
    | succ g => simp [heapifyUpGo]
  | succ f ih =>
    intro f2 l i h1 h2
    cases f2 with
    | zero =>
      have : i = 0 := by omega
      subst this
      simp [heapifyUpGo]
    | succ g =>
      simp only [heapifyUpGo]
      by_cases hi : i > 0
      · rw [if_pos hi, if_pos hi]
        by_cases hc : cmpAt is_min l i ((i - 1) / 2) = true
        · rw [if_pos hc, if_pos hc]
          rw [ih g _ _ (by omega) (by omega)]
        · rw [if_neg hc, if_neg hc]
      · rw [if_neg hi, if_neg hi]

lemma heapify_up_eq_go {is_min : Bool} {l : List α} {i fuel : Nat}
    (h : i ≤ fuel) :
    heapify_up is_min l i = heapifyUpGo is_min fuel l i :=
  heapifyUpGo_congr i fuel l i (by omega) h

/-! ### Length and permutation preservation -/

lemma heapifyDownGo_length (is_min : Bool) :
    ∀ (fuel : Nat) (l : List α) (i : Nat),
      (heapifyDownGo is_min fuel l i).1.length = l.length := by
  intro fuel
  induction fuel with
  | zero => intro l i; rfl
  | succ f ih =>
    intro l i
    simp only [heapifyDownGo]
    by_cases hs : swapIdx is_min l i ≠ i
    · rw [if_pos hs]
      simp only
      rw [ih, swapHeap_length]
    · rw [if_neg hs]

lemma heapify_down_length (is_min : Bool) (l : List α) (i : Nat) :
    (heapify_down is_min l i).1.length = l.length :=
  heapifyDownGo_length is_min l.length l i

lemma heapifyDownGo_perm (is_min : Bool) :
    ∀ (fuel : Nat) (l : List α) (i : Nat),
      (heapifyDownGo is_min fuel l i).1.Perm l := by
  intro fuel
  induction fuel with
  | zero => intro l i; exact List.Perm.refl l
  | succ f ih =>
    intro l i
    simp only [heapifyDownGo]
    by_cases hs : swapIdx is_min l i ≠ i
    · rw [if_pos hs]
      exact (ih _ _).trans (swapHeap_perm l i _)
    · rw [if_neg hs]

lemma heapify_down_perm (is_min : Bool) (l : List α) (i : Nat) :
    (heapify_down is_min l i).1.Perm l :=
  heapifyDownGo_perm is_min l.length l i

lemma heapifyUpGo_length (is_min : Bool) :
    ∀ (fuel : Nat) (l : List α) (i : Nat),
      (heapifyUpGo is_min fuel l i).1.length = l.length := by
  intro fuel
  induction fuel with
  | zero => intro l i; rfl
  | succ f ih =>
    intro l i
    simp only [heapifyUpGo]
    by_cases hi : i > 0
    · rw [if_pos hi]
      by_cases hc : cmpAt is_min l i ((i - 1) / 2) = true
      · rw [if_pos hc]
        simp only
        rw [ih, swapHeap_length]
      · rw [if_neg hc]
    · rw [if_neg hi]

lemma heapify_up_length (is_min : Bool) (l : List α) (i : Nat) :
    (heapify_up is_min l i).1.length = l.length :=
  heapifyUpGo_length is_min i l i

lemma heapifyUpGo_perm (is_min : Bool) :
    ∀ (fuel : Nat) (l : List α) (i : Nat),
      (heapifyUpGo is_min fuel l i).1.Perm l := by
  intro fuel
  induction fuel with
  | zero => intro l i; exact List.Perm.refl l
  | succ f ih =>
    intro l i
    simp only [heapifyUpGo]
    by_cases hi : i > 0
    · rw [if_pos hi]
      by_cases hc : cmpAt is_min l i ((i - 1) / 2) = true
      · rw [if_pos hc]
        exact (ih _ _).trans (swapHeap_perm l i _)
      · rw [if_neg hc]
    · rw [if_neg hi]

lemma heapify_up_perm (is_min : Bool) (l : List α) (i : Nat) :
    (heapify_up is_min l i).1.Perm l :=
  heapifyUpGo_perm is_min i l i

lemma buildLoop_length (is_min : Bool) :
    ∀ (n : Nat) (l : List α), (buildLoop is_min l n).1.length = l.length := by
  intro n
  induction n with
  | zero => intro l; rfl
  | succ m ih =>
    intro l
    simp only [buildLoop]
    rw [ih, heapify_down_length]

lemma buildLoop_perm (is_min : Bool) :
    ∀ (n : Nat) (l : List α), (buildLoop is_min l n).1.Perm l := by
  intro n
  induction n with
  | zero => intro l; exact List.Perm.refl l
  | succ m ih =>
    intro l
    simp only [buildLoop]
    exact (ih _).trans (heapify_down_perm is_min l m)

lemma build_heap_length (is_min : Bool) (arr : List α) :
    (build_heap is_min arr).1.length = arr.length :=
  buildLoop_length is_min (arr.length / 2) arr

lemma build_heap_perm (is_min : Bool) (arr : List α) :
    (build_heap is_min arr).1.Perm arr :=
  buildLoop_perm is_min (arr.length / 2) arr

lemma insert_length (is_min : Bool) (l : List α) (v : α) :
    (insert is_min l v).1.length = l.length + 1 := by
  unfold AnimatedHeap.insert
  rw [heapify_up_length]
  simp

lemma insert_perm (is_min : Bool) (l : List α) (v : α) :
    (insert is_min l v).1.Perm (l ++ [v]) :=
  heapify_up_perm is_min (l ++ [v]) _

/-! ### Correctness of sift-down -/

lemma getElem?_some_lt {l : List α} {i : Nat} {x : α} (h : l[i]? = some x) :
    i < l.length := by
  obtain ⟨h1, -⟩ := List.getElem?_eq_some.mp h
  exact h1

/-- In a list heap-ordered throughout the subtree rooted at `r`, the value at
`r` is favored over every value in that subtree. -/
lemma subtree_root_min {is_min : Bool} {l : List α} {r : Nat}
    (hord : ∀ p c, isChild p c → InSub r p → okAt is_min l p c) :
    ∀ m, InSub r m → ∀ x y, l[r]? = some x → l[m]? = some y → favors is_min x y := by
  intro m
  induction m using Nat.strong_induction_on with
  | _ m ih =>
    intro hm x y hx hy
    by_cases hmr : m = r
    · subst hmr
      rw [hx] at hy
      cases hy
      exact favors_refl is_min x
    · have hrm : r < m := lt_of_le_of_ne hm.le (fun h' => hmr h'.symm)
      have hp : InSub r (parentIdx m) := InSub_parent hm hmr
      have hchild : isChild (parentIdx m) m := by
        unfold parentIdx isChild
        omega
      have hplt : parentIdx m < m := by unfold parentIdx; omega
      have hmlen : m < l.length := getElem?_some_lt hy
      obtain ⟨z, hz⟩ := exists_getElem?_of_lt (show parentIdx m < l.length by omega)
      exact favors_trans (ih (parentIdx m) hplt hp x z hx hz)
        (hord _ _ hchild hp z y hz hy)

/-- Master lemma for `_heapify_down` at `j`: if every parent-child pair
strictly inside the subtree of `j` is already ordered, then afterwards
(1) positions outside the subtree are untouched, (2) every parent-child pair
inside the subtree (now including `j`) is ordered, and (3) every value inside
the subtree came from the subtree. -/
lemma downGo_master {is_min : Bool} :
    ∀ (fuel : Nat) (l : List α) (j : Nat), l.length ≤ fuel + j →
      (∀ p c, isChild p c → InSub j p → p ≠ j → okAt is_min l p c) →
      (∀ k, ¬ InSub j k → (heapifyDownGo is_min fuel l j).1[k]? = l[k]?) ∧
      (∀ p c, isChild p c → InSub j p →
        okAt is_min (heapifyDownGo is_min fuel l j).1 p c) ∧
      (∀ k, InSub j k → k < l.length →
        ∃ m, InSub j m ∧ m < l.length ∧
          (heapifyDownGo is_min fuel l j).1[k]? = l[m]?) := by
  intro fuel
  induction fuel with
  | zero =>
    intro l j hfuel H
    refine ⟨fun k _ => rfl, ?_, fun k hk hklen => ⟨k, hk, hklen, rfl⟩⟩
    intro p c hcc hp
    by_cases hpj : p = j
    · intro x y hx hy
      have hclen := getElem?_some_lt hy
      rw [heapifyDownGo_length] at hclen
      exfalso
      rcases hcc with h' | h' <;> omega
    · exact H p c hcc hp hpj
  | succ fuel ih =>
    intro l j hfuel H
    simp only [heapifyDownGo]
    by_cases hs : swapIdx is_min l j ≠ j
    · rw [if_pos hs]
      obtain ⟨hchild, hslen, hcmpAt, hother⟩ := swapIdx_spec hs
      obtain ⟨hjlt, hjlen⟩ := swapIdx_child_bounds hs
      set s := swapIdx is_min l j with hsdef
      obtain ⟨xj, hxj⟩ := exists_getElem?_of_lt hjlen
      obtain ⟨xs, hxs⟩ := exists_getElem?_of_lt hslen
      have hcmp : cmpv is_min xs xj = true := by
        rw [cmpAt_eq hxs hxj] at hcmpAt
        exact hcmpAt
      set l1 := swapHeap l j s with hl1def
      have hlen1 : l1.length = l.length := swapHeap_length l j s
      have hl1j : l1[j]? = l[s]? := by
        rw [hl1def, swapHeap_get_fst hxj hxs, hxs]
      have hl1s : l1[s]? = l[j]? := by
        rw [hl1def, swapHeap_get_snd hxj hxs, hxj]
      have hl1other : ∀ k, k ≠ j → k ≠ s → l1[k]? = l[k]? :=
        fun k h1 h2 => swapHeap_get_other h1 h2
      have hjs : InSub j s := InSub_child hchild (InSub_refl j)
      -- the subtree of s is fully ordered in l
      have hordS : ∀ p c, isChild p c → InSub s p → okAt is_min l p c := by
        intro p c hcc hp
        exact H p c hcc (hjs.trans hp) (by have := hp.le; omega)
      -- hypothesis for the recursive call
      have H1 : ∀ p c, isChild p c → InSub s p → p ≠ s → okAt is_min l1 p c := by
        intro p c hcc hp hps
        have hsp : s < p := lt_of_le_of_ne hp.le (fun h' => hps h'.symm)
        have hpc : p < c := by rcases hcc with h' | h' <;> omega
        intro x y hx hy
        rw [hl1other p (by omega) (by omega)] at hx
        rw [hl1other c (by omega) (by omega)] at hy
        exact H p c hcc (hjs.trans hp) (by omega) x y hx hy
      obtain ⟨C1, C2, C3⟩ := ih l1 s (by rw [hlen1]; omega) H1
      have hreslen : (heapifyDownGo is_min fuel l1 s).1.length = l.length := by
        rw [heapifyDownGo_length, hlen1]
      refine ⟨?_, ?_, ?_⟩
      · -- outside the subtree of j: untouched
        intro k hk
        have hks : ¬ InSub s k := fun h' => hk (hjs.trans h')
        rw [C1 k hks]
        exact hl1other k (fun h' => hk (h' ▸ InSub_refl j)) (fun h' => hk (h' ▸ hjs))
      · -- the subtree of j is now ordered
        intro p c hcc hp
        by_cases hps : InSub s p
        · exact C2 p c hcc hps
        · by_cases hpj : p = j
          · rw [hpj] at hcc ⊢
            -- children of j: the swapped child s and possibly its sibling
            have hcs : isChild j c := hcc
            intro x y hx hy
            have hxval : x = xs := by
              rw [C1 j (not_InSub_of_lt hjlt), hl1j, hxs] at hx
              cases hx
              rfl
            subst hxval
            by_cases hcseq : c = s
            · rw [hcseq] at hy
              obtain ⟨m, hm, hmlen, hmeq⟩ := C3 s (InSub_refl s) (by omega)
              rw [hmeq] at hy
              by_cases hms : m = s
              · subst hms
                rw [hl1s, hxj] at hy
                cases hy
                exact favors_of_cmp hcmp
              · rw [hl1other m (by have := hm.le; omega) hms] at hy
                exact subtree_root_min hordS m hm x y hxs hy
            · have hcnotS : ¬ InSub s c := not_InSub_sibling hchild hcs hcseq
              have hcj : j < c := by rcases hcs with h' | h' <;> omega
              rw [C1 c hcnotS, hl1other c (by omega) hcseq] at hy
              have hclen : c < l.length := getElem?_some_lt hy
              have := hother c hcs hclen hcseq
              rw [cmpAt_eq hy hxs] at this
              exact favors_of_not_cmp this
          · -- p outside the subtree of s and p ≠ j: both values untouched
            have hjp : j < p := lt_of_le_of_ne hp.le (fun h' => hpj h'.symm)
            have hpc : p < c := by rcases hcc with h' | h' <;> omega
            have hcs : ¬ InSub s c := by
              intro h'
              by_cases hceq : c = s
              · rw [hceq] at hcc
                have h1 : parentIdx s = p := by
                  unfold parentIdx
                  rcases hcc with h'' | h'' <;> omega
                have h2 : parentIdx s = j := by
                  unfold parentIdx
                  rcases hchild with h'' | h'' <;> omega
                omega
              · exact hps (InSub_child_rev hcc h' hceq)
            intro x y hx hy
            rw [C1 p hps, hl1other p (by omega) (fun h' => hps (h' ▸ InSub_refl s))] at hx
            rw [C1 c hcs, hl1other c (by omega) (fun h' => hcs (h' ▸ InSub_refl s))] at hy
            exact H p c hcc hp hpj x y hx hy
      · -- values in the subtree of j come from the subtree of j
        intro k hk hklen
        by_cases hks : InSub s k
        · obtain ⟨m1, hm1, hm1len, hm1eq⟩ := C3 k hks (by omega)
          by_cases hm1s : m1 = s
          · subst hm1s
            refine ⟨j, InSub_refl j, hjlen, ?_⟩
            rw [hm1eq, hl1s]
          · refine ⟨m1, hjs.trans hm1, by omega, ?_⟩
            rw [hm1eq, hl1other m1 (by have := hm1.le; omega) hm1s]
        · rw [C1 k hks]
          by_cases hkj : k = j
          · subst hkj
            exact ⟨s, hjs, hslen, hl1j⟩
          · exact ⟨k, hk, hklen, hl1other k hkj (fun h' => hks (h' ▸ InSub_refl s))⟩
    · rw [if_neg hs]
      simp only [ne_eq, not_not] at hs
      refine ⟨fun k _ => rfl, ?_, fun k hk hklen => ⟨k, hk, hklen, rfl⟩⟩
      intro p c hcc hp
      by_cases hpj : p = j
      · subst hpj
        intro x y hx hy
        have hclen := getElem?_some_lt hy
        have := swapIdx_eq_self hs c hcc hclen
        rw [cmpAt_eq hy hx] at this
        exact favors_of_not_cmp this
      · exact H p c hcc hp hpj

/-- `heapify_down` version of the master lemma. -/
lemma heapify_down_master {is_min : Bool} (l : List α) (j : Nat)
    (H : ∀ p c, isChild p c → InSub j p → p ≠ j → okAt is_min l p c) :
    (∀ k, ¬ InSub j k → (heapify_down is_min l j).1[k]? = l[k]?) ∧
      (∀ p c, isChild p c → InSub j p →
        okAt is_min (heapify_down is_min l j).1 p c) ∧
      (∀ k, InSub j k → k < l.length →
        ∃ m, InSub j m ∧ m < l.length ∧ (heapify_down is_min l j).1[k]? = l[m]?) :=
  downGo_master l.length l j (by omega) H

/-! ### Heap order after `build_heap` -/

lemma buildLoop_HO {is_min : Bool} :
    ∀ (n : Nat) (l : List α), (∀ p c, isChild p c → n ≤ p → okAt is_min l p c) →
      ∀ p c, isChild p c → okAt is_min (buildLoop is_min l n).1 p c := by
  intro n
  induction n with
  | zero =>
    intro l hyp p c hcc
    exact hyp p c hcc (Nat.zero_le p)
  | succ m ih =>
    intro l hyp
    simp only [buildLoop]
    obtain ⟨D1, D2, D3⟩ := heapify_down_master l m (fun p c hcc hp hpm =>
      hyp p c hcc (by have := hp.le; omega))
    apply ih
    intro p c hcc hpm
    by_cases hps : InSub m p
    · exact D2 p c hcc hps
    · have hpne : p ≠ m := fun h' => hps (h' ▸ InSub_refl m)
      have hpc : p < c := by rcases hcc with h' | h' <;> omega
      have hcm : c ≠ m := by omega
      have hcs : ¬ InSub m c := fun h' => hps (InSub_child_rev hcc h' hcm)
      intro x y hx hy
      rw [D1 p hps] at hx
      rw [D1 c hcs] at hy
      exact hyp p c hcc (by omega) x y hx hy

lemma build_heap_HO (is_min : Bool) (arr : List α) :
    HO is_min (build_heap is_min arr).1 := by
  intro p c hcc
  apply buildLoop_HO (arr.length / 2) arr _ p c hcc
  intro q d hqd hq x y hx hy
  have hdlen := getElem?_some_lt hy
  exfalso
  rcases hqd with h' | h' <;> omega

/-! ### Heap order after `insert` -/

lemma upGo_HO {is_min : Bool} :
    ∀ (fuel : Nat) (l : List α) (k : Nat), k ≤ fuel →
      (∀ p c, isChild p c → c ≠ k → okAt is_min l p c) →
      (k ≠ 0 → ∀ c, isChild k c → okAt is_min l ((k - 1) / 2) c) →
      HO is_min (heapifyUpGo is_min fuel l k).1 := by
  intro fuel
  induction fuel with
  | zero =>
    intro l k hk U1 _
    have hk0 : k = 0 := by omega
    subst hk0
    intro p c hcc
    have hc0 : c ≠ 0 := by rcases hcc with h' | h' <;> omega
    exact U1 p c hcc hc0
  | succ fuel ih =>
    intro l k hfuel U1 U2
    simp only [heapifyUpGo]
    by_cases hk : k > 0
    · rw [if_pos hk]
      by_cases hc : cmpAt is_min l k ((k - 1) / 2) = true
      · rw [if_pos hc]
        obtain ⟨hklen, hplen⟩ := cmpAt_bounds hc
        obtain ⟨xk, hxk⟩ := exists_getElem?_of_lt hklen
        obtain ⟨xp, hxp⟩ := exists_getElem?_of_lt hplen
        have hcmp : cmpv is_min xk xp = true := by
          rw [cmpAt_eq hxk hxp] at hc
          exact hc
        have hpk : (k - 1) / 2 < k := by omega
        have hchildk : isChild ((k - 1) / 2) k := by
          unfold isChild
          omega
        set l1 := swapHeap l k ((k - 1) / 2) with hl1def
        have hl1k : l1[k]? = some xp := swapHeap_get_fst hxk hxp
        have hl1p : l1[(k - 1) / 2]? = some xk := swapHeap_get_snd hxk hxp
        have hl1other : ∀ m, m ≠ k → m ≠ (k - 1) / 2 → l1[m]? = l[m]? :=
          fun m h1 h2 => swapHeap_get_other h1 h2
        apply ih l1 ((k - 1) / 2) (by omega)
        · -- all edges except the one into the new position are ordered
          intro q c hcc hcp
          by_cases hck : c = k
          · rw [hck] at hcc ⊢
            have hq : q = (k - 1) / 2 := by
              unfold isChild at hcc
              omega
            subst hq
            intro x y hx hy
            rw [hl1p] at hx
            rw [hl1k] at hy
            cases hx
            cases hy
            exact favors_of_cmp hcmp
          · by_cases hqk : q = k
            · rw [hqk] at hcc ⊢
              intro x y hx hy
              rw [hl1k] at hx
              cases hx
              have hck2 : c ≠ (k - 1) / 2 := hcp
              have hckgt : k < c := by rcases hcc with h' | h' <;> omega
              rw [hl1other c hck (by omega)] at hy
              exact U2 (by omega) c hcc xp y hxp hy
            · by_cases hqp : q = (k - 1) / 2
              · subst hqp
                intro x y hx hy
                rw [hl1p] at hx
                cases hx
                have hcgt : (k - 1) / 2 < c := by rcases hcc with h' | h' <;> omega
                rw [hl1other c hck (by omega)] at hy
                exact favors_trans (favors_of_cmp hcmp)
                  (U1 _ c hcc hck xp y hxp hy)
              · intro x y hx hy
                have hcq : q < c := by rcases hcc with h' | h' <;> omega
                rw [hl1other q hqk hqp] at hx
                rw [hl1other c hck (fun h' => by omega)] at hy
                exact U1 q c hcc hck x y hx hy
        · -- the grandparent is favored over the children of the new position
          intro hp0 c hcc
          set g := ((k - 1) / 2 - 1) / 2 with hgdef
          have hglt : g < (k - 1) / 2 := by omega
          have hgchild : isChild g ((k - 1) / 2) := by
            unfold isChild
            omega
          intro x y hx hy
          rw [hl1other g (by omega) (by omega)] at hx
          by_cases hck : c = k
          · rw [hck] at hy
            rw [hl1k] at hy
            cases hy
            exact U1 g _ hgchild (by omega) x xp hx hxp
          · have hcgt : (k - 1) / 2 < c := by rcases hcc with h' | h' <;> omega
            rw [hl1other c hck (by omega)] at hy
            exact favors_trans (U1 g _ hgchild (by omega) x xp hx hxp)
              (U1 _ c hcc hck xp y hxp hy)
      · rw [if_neg hc]
        intro p c hcc
        by_cases hck : c = k
        · rw [hck] at hcc ⊢
          have hp : p = (k - 1) / 2 := by
            unfold isChild at hcc
            omega
          subst hp
          intro x y hx hy
          have : cmpAt is_min l k ((k - 1) / 2) = false := by
            cases h' : cmpAt is_min l k ((k - 1) / 2)
            · rfl
            · exact absurd h' hc
          rw [cmpAt_eq hy hx] at this
          exact favors_of_not_cmp this
        · exact U1 p c hcc hck
    · rw [if_neg hk]
      intro p c hcc
      have hc0 : c ≠ k := by
        have : k = 0 := by omega
        rcases hcc with h' | h' <;> omega
      exact U1 p c hcc hc0

lemma insert_HO {is_min : Bool} {l : List α} (h : HO is_min l) (v : α) :
    HO is_min (AnimatedHeap.insert is_min l v).1 := by
  unfold AnimatedHeap.insert heapify_up
  have hn : (l ++ [v]).length - 1 = l.length := by simp
  apply upGo_HO _ _ _ (le_refl _)
  · intro p c hcc hck x y hx hy
    have hclen := getElem?_some_lt hy
    rw [List.length_append] at hclen
    have hcl : c < l.length := by
      simp only [List.length_singleton] at hclen
      rw [hn] at hck
      omega
    have hpl : p < l.length := by rcases hcc with h' | h' <;> omega
    rw [List.getElem?_append_left hpl] at hx
    rw [List.getElem?_append_left hcl] at hy
    exact h p c hcc x y hx hy
  · intro h0 c hcc x y hx hy
    have hclen := getElem?_some_lt hy
    rw [List.length_append] at hclen
    simp only [List.length_singleton] at hclen
    rw [hn] at hcc
    exfalso
    rcases hcc with h' | h' <;> omega

/-! ### Heap order after `delete_root` -/

lemma HO_nil (is_min : Bool) : HO is_min ([] : List α) := by
  intro p c hcc x y hx hy
  simp at hx

/-- Unfolding equation for `delete_root` on a non-empty heap. -/
lemma delete_root_cons (is_min : Bool) (a : α) (xs : List α) :
    delete_root is_min (a :: xs) =
      (if ((a :: xs).dropLast).isEmpty then
        (some a, (a :: xs).dropLast, ([] : List (Nat × Nat)))
      else
        (some a,
          (heapify_down is_min
            (((a :: xs).dropLast).set 0 ((a :: xs).getLast (List.cons_ne_nil a xs))) 0).1,
          (heapify_down is_min
            (((a :: xs).dropLast).set 0 ((a :: xs).getLast (List.cons_ne_nil a xs))) 0).2)) :=
  rfl

lemma delete_root_HO {is_min : Bool} {l : List α} (h : HO is_min l) :
    HO is_min (delete_root is_min l).2.1 := by
  cases l with
  | nil => exact HO_nil is_min
  | cons a xs =>
    rw [delete_root_cons]
    by_cases hp : ((a :: xs).dropLast).isEmpty
    · rw [if_pos hp]
      show HO is_min ((a :: xs).dropLast)
      rw [List.isEmpty_iff.mp hp]
      exact HO_nil is_min
    · rw [if_neg hp]
      set last := (a :: xs).getLast (List.cons_ne_nil a xs) with hlastdef
      set l0 := ((a :: xs).dropLast).set 0 last with hl0def
      show HO is_min (heapify_down is_min l0 0).1
      have hl0len : l0.length = (a :: xs).length - 1 := by
        rw [hl0def, List.length_set, List.length_dropLast]
      have hl0get : ∀ m, m ≠ 0 → m < l0.length → l0[m]? = (a :: xs)[m]? := by
        intro m hm hmlen
        rw [hl0def, List.getElem?_set_ne (fun h' => hm h'.symm)]
        exact getElem?_dropLast (by rw [hl0len] at hmlen; omega)
      have Hyp : ∀ p c, isChild p c → InSub 0 p → p ≠ 0 → okAt is_min l0 p c := by
        intro p c hcc hip hp0 x y hx hy
        have hc0 : c ≠ 0 := by rcases hcc with h' | h' <;> omega
        have hclen := getElem?_some_lt hy
        have hplen := getElem?_some_lt hx
        rw [hl0get p hp0 hplen] at hx
        rw [hl0get c hc0 hclen] at hy
        exact h p c hcc x y hx hy
      obtain ⟨D1, D2, D3⟩ := heapify_down_master l0 0 Hyp
      intro p c hcc
      exact D2 p c hcc (InSub_zero p)

/-! ### The invariant holds after every reachable sequence of operations -/

lemma runOp_HO {is_min : Bool} {l : List α} (h : HO is_min l) (op : Op α) :
    HO is_min (runOp is_min l op) := by
  cases op with
  | build arr => exact build_heap_HO is_min arr
  | insert v => exact insert_HO h v
  | deleteRoot => exact delete_root_HO h

lemma runFrom_HO {is_min : Bool} :
    ∀ (ops : List (Op α)) (l : List α), HO is_min l →
      HO is_min (runFrom is_min l ops) := by
  intro ops
  induction ops with
  | nil => intro l h; exact h
  | cons op ops ih =>
    intro l h
    exact ih _ (runOp_HO h op)

lemma runOps_HO (is_min : Bool) (ops : List (Op α)) :
    HO is_min (runOps is_min ops) :=
  runFrom_HO ops [] (HO_nil is_min)

/-! ### Return value, size and multiset behaviour of `delete_root` -/

lemma delete_root_fst (is_min : Bool) (x : α) (xs : List α) :
    (delete_root is_min (x :: xs)).1 = some x := by
  rw [delete_root_cons]
  split <;> rfl

lemma delete_root_length (is_min : Bool) (x : α) (xs : List α) :
    (delete_root is_min (x :: xs)).2.1.length = xs.length := by
  rw [delete_root_cons]
  split
  · show ((x :: xs).dropLast).length = xs.length
    simp
  · show (heapify_down is_min _ 0).1.length = xs.length
    rw [heapify_down_length, List.length_set, List.length_dropLast]
    simp

/-- `delete_root` returns the head and keeps exactly the rest of the values. -/
lemma delete_root_perm (is_min : Bool) (x : α) (xs : List α) :
    (x :: (delete_root is_min (x :: xs)).2.1).Perm (x :: xs) := by
  rw [delete_root_cons]
  by_cases hp : ((x :: xs).dropLast).isEmpty
  · rw [if_pos hp]
    have hxs : xs = [] := by
      have h0 := List.isEmpty_iff.mp hp
      have hlen := congrArg List.length h0
      simp at hlen
      exact hlen
    subst hxs
    exact List.Perm.refl _
  · rw [if_neg hp]
    have hxs : xs ≠ [] := by
      intro h'
      subst h'
      simp at hp
    show (x :: (heapify_down is_min (((x :: xs).dropLast).set 0
      ((x :: xs).getLast (List.cons_ne_nil x xs))) 0).1).Perm (x :: xs)
    cases xs with
    | nil => exact absurd rfl hxs
    | cons y ys =>
      have hdrop : (x :: y :: ys).dropLast = x :: (y :: ys).dropLast := rfl
      have hlast : (x :: y :: ys).getLast (List.cons_ne_nil x (y :: ys)) =
          (y :: ys).getLast (List.cons_ne_nil y ys) := List.getLast_cons _
      rw [hdrop, hlast]
      have hset : (x :: (y :: ys).dropLast).set 0 ((y :: ys).getLast (List.cons_ne_nil y ys)) =
          (y :: ys).getLast (List.cons_ne_nil y ys) :: (y :: ys).dropLast := rfl
      rw [hset]
      refine ((heapify_down_perm is_min _ 0).cons x).trans ?_
      have h1 : ((y :: ys).getLast (List.cons_ne_nil y ys) :: (y :: ys).dropLast).Perm
          ((y :: ys).dropLast ++ [(y :: ys).getLast (List.cons_ne_nil y ys)]) :=
        (List.perm_append_singleton _ _).symm
      have h2 : (y :: ys).dropLast ++ [(y :: ys).getLast (List.cons_ne_nil y ys)] = y :: ys :=
        List.dropLast_append_getLast (List.cons_ne_nil y ys)
      have h3 : ((y :: ys).dropLast ++
          [(y :: ys).getLast (List.cons_ne_nil y ys)]).Perm (y :: ys) := by
        rw [h2]
      exact ((h1.trans h3).cons x)

lemma delete_root_multiset (is_min : Bool) (x : α) (xs : List α) :
    x ::ₘ ((delete_root is_min (x :: xs)).2.1 : Multiset α) = ((x :: xs : List α) : Multiset α) := by
  have := Multiset.coe_eq_coe.mpr (delete_root_perm is_min x xs)
  simpa using this

/-! ### Sorted extraction -/

/-- In a heap-ordered list the root value is favored over every element. -/
lemma HO_root_min {is_min : Bool} {l : List α} (h : HO is_min l) {x : α}
    (hx : l[0]? = some x) : ∀ y ∈ l, favors is_min x y := by
  intro y hy
  obtain ⟨k, hk⟩ := List.mem_iff_getElem?.mp hy
  exact subtree_root_min (fun p c hcc _ => h p c hcc) k (InSub_zero k) x y hx hk

lemma extractN_cons {is_min : Bool} {l : List α} {r : α} {l' : List α}
    {evs : List (Nat × Nat)} (hd : delete_root is_min l = (some r, l', evs)) (n : Nat) :
    extractN is_min (n + 1) l =
      (r :: (extractN is_min n l').1, (extractN is_min n l').2) := by
  simp only [extractN, hd]

lemma extract_spec {is_min : Bool} :
    ∀ (n : Nat) (l : List α), HO is_min l → n = l.length →
      (extractN is_min n l).1.Perm l ∧
        List.Pairwise (favors is_min) (extractN is_min n l).1 ∧
        (extractN is_min n l).2 = [] := by
  intro n
  induction n with
  | zero =>
    intro l h hlen
    have : l = [] := List.length_eq_zero.mp hlen.symm
    subst this
    exact ⟨List.Perm.refl _, List.Pairwise.nil, rfl⟩
  | succ m ih =>
    intro l h hlen
    cases l with
    | nil => simp at hlen
    | cons x xs =>
      have hd : delete_root is_min (x :: xs) =
          (some x, (delete_root is_min (x :: xs)).2.1,
            (delete_root is_min (x :: xs)).2.2) := by
        rw [← delete_root_fst is_min x xs]
      rw [extractN_cons hd m]
      set l' := (delete_root is_min (x :: xs)).2.1 with hldef
      have hHO' : HO is_min l' := delete_root_HO h
      have hlen' : m = l'.length := by
        rw [hldef, delete_root_length]
        simp at hlen
        omega
      obtain ⟨ihp, ihs, ihe⟩ := ih l' hHO' hlen'
      have hperm : (x :: (extractN is_min m l').1).Perm (x :: xs) :=
        (ihp.cons x).trans (delete_root_perm is_min x xs)
      refine ⟨hperm, ?_, ihe⟩
      refine List.Pairwise.cons ?_ ihs
      intro y hy
      have hyl : y ∈ (x :: xs) := by
        have h1 : y ∈ l' := ihp.mem_iff.mp hy
        have h2 : y ∈ x :: l' := List.mem_cons_of_mem x h1
        exact (delete_root_perm is_min x xs).mem_iff.mp h2
      exact HO_root_min h (show (x :: xs)[0]? = some x by simp) y hyl

/-! ### The checked variants never fail: every index access is in range -/

lemma swapChecked_eq {l : List α} {i j : Nat} (hi : i < l.length) (hj : j < l.length) :
    swapChecked l i j = some (swapHeap l i j) := by
  obtain ⟨a, ha⟩ := exists_getElem?_of_lt hi
  obtain ⟨b, hb⟩ := exists_getElem?_of_lt hj
  simp [swapChecked, swapHeap, ha, hb]

lemma heapifyDownSafeGo_eq (is_min : Bool) :
    ∀ (fuel : Nat) (l : List α) (i : Nat),
      heapifyDownSafeGo is_min fuel l i = some (heapifyDownGo is_min fuel l i) := by
  intro fuel
  induction fuel with
  | zero => intro l i; rfl
  | succ f ih =>
    intro l i
    have hs1 : (if 2 * i + 1 < l.length then
        Option.bind l[2 * i + 1]? (fun a =>
          Option.bind l[i]? (fun b =>
            some (if cmpv is_min a b then 2 * i + 1 else i)))
      else some i) = some (cand1 is_min l i) := by
      by_cases h : 2 * i + 1 < l.length
      · have hi : i < l.length := by omega
        obtain ⟨a, ha⟩ := exists_getElem?_of_lt h
        obtain ⟨b, hb⟩ := exists_getElem?_of_lt hi
        simp [h, ha, hb, cand1, cmpAt_eq ha hb]
      · simp [h, cand1]
    have hc1lt : 2 * i + 2 < l.length → cand1 is_min l i < l.length := by
      intro h
      rcases cand1_cases is_min l i with h' | ⟨h', -, -⟩ <;> rw [h'] <;> omega
    have hs2 : (if 2 * i + 2 < l.length then
        Option.bind l[2 * i + 2]? (fun a =>
          Option.bind l[cand1 is_min l i]? (fun b =>
            some (if cmpv is_min a b then 2 * i + 2 else cand1 is_min l i)))
      else some (cand1 is_min l i)) = some (swapIdx is_min l i) := by
      by_cases h : 2 * i + 2 < l.length
      · obtain ⟨a, ha⟩ := exists_getElem?_of_lt h
        obtain ⟨b, hb⟩ := exists_getElem?_of_lt (hc1lt h)
        simp [h, ha, hb, swapIdx, cmpAt_eq ha hb]
      · simp [h, swapIdx]
    simp only [heapifyDownSafeGo]
    rw [hs1]
    simp only [Option.some_bind]
    rw [hs2]
    simp only [Option.some_bind]
    by_cases hs : swapIdx is_min l i ≠ i
    · rw [if_pos hs]
      obtain ⟨-, hslen, -, -⟩ := swapIdx_spec hs
      obtain ⟨-, hilen⟩ := swapIdx_child_bounds hs
      rw [swapChecked_eq hilen hslen]
      simp only [Option.some_bind]
      rw [ih]
      simp only [Option.some_bind, heapifyDownGo]
      rw [if_pos hs]
    · rw [if_neg hs]
      simp only [heapifyDownGo]
      rw [if_neg hs]

/-- Checked sift-down always succeeds and agrees with the total model. -/
lemma heapifyDownSafe_eq (is_min : Bool) (l : List α) (i : Nat) :
    heapifyDownSafe is_min l i = some (heapify_down is_min l i) :=
  heapifyDownSafeGo_eq is_min l.length l i

lemma heapifyUpSafeGo_eq (is_min : Bool) :
    ∀ (fuel : Nat) (l : List α) (i : Nat), i < l.length ∨ i = 0 →
      heapifyUpSafeGo is_min fuel l i = some (heapifyUpGo is_min fuel l i) := by
  intro fuel
  induction fuel with
  | zero => intro l i _; rfl
  | succ f ih =>
    intro l i hi
    simp only [heapifyUpSafeGo]
    by_cases hi0 : i > 0
    · rw [if_pos hi0]
      have hilen : i < l.length := by
        rcases hi with h' | h'
        · exact h'
        · omega
      have hplen : (i - 1) / 2 < l.length := by omega
      obtain ⟨a, ha⟩ := exists_getElem?_of_lt hilen
      obtain ⟨b, hb⟩ := exists_getElem?_of_lt hplen
      rw [ha, hb]
      simp only [Option.some_bind]
      have hcmpAt : cmpAt is_min l i ((i - 1) / 2) = cmpv is_min a b := cmpAt_eq ha hb
      by_cases hc : cmpv is_min a b = true
      · rw [if_pos hc, swapChecked_eq hilen hplen]
        simp only [Option.some_bind]
        rw [ih (swapHeap l i ((i - 1) / 2)) ((i - 1) / 2)
          (Or.inl (by rw [swapHeap_length]; omega))]
        simp only [Option.some_bind, heapifyUpGo]
        rw [if_pos hi0, if_pos (hcmpAt.trans hc)]
      · rw [if_neg hc]
        simp only [heapifyUpGo]
        rw [if_pos hi0, if_neg (fun h' => hc (hcmpAt.symm.trans h'))]
    · rw [if_neg hi0]
      simp only [heapifyUpGo]
      rw [if_neg hi0]

lemma heapifyUpSafe_eq (is_min : Bool) (l : List α) (i : Nat)
    (h : i < l.length ∨ i = 0) :
    heapifyUpSafe is_min l i = some (heapify_up is_min l i) :=
  heapifyUpSafeGo_eq is_min i l i h

/-- Checked `insert` always succeeds and agrees with the total model. -/
lemma insertSafe_eq (is_min : Bool) (l : List α) (v : α) :
    insertSafe is_min l v = some (AnimatedHeap.insert is_min l v) :=
  heapifyUpSafe_eq is_min (l ++ [v]) ((l ++ [v]).length - 1)
    (Or.inl (by simp))

/-- Checked `delete_root` always succeeds and agrees with the total model. -/
lemma delete_rootSafe_eq (is_min : Bool) (l : List α) :
    delete_rootSafe is_min l = some (delete_root is_min l) := by
  cases l with
  | nil => rfl
  | cons x xs =>
    simp only [delete_rootSafe]
    have h0 : (x :: xs)[0]? = some x := by simp
    have hlast : (x :: xs).getLast? = some ((x :: xs).getLast (List.cons_ne_nil x xs)) := rfl
    rw [h0, hlast]
    simp only [Option.some_bind]
    rw [delete_root_cons]
    by_cases hp : ((x :: xs).dropLast).isEmpty
    · rw [if_pos hp, if_pos hp]
    · rw [if_neg hp, if_neg hp]
      have hlen : 0 < ((x :: xs).dropLast).length :=
        List.length_pos.mpr (fun h' => hp (by rw [h']; rfl))
      rw [if_pos hlen]
      simp only [Option.some_bind]
      rw [heapifyDownSafe_eq]
      simp only [Option.some_bind]

lemma buildSafeLoop_eq (is_min : Bool) :
    ∀ (n : Nat) (l : List α), buildSafeLoop is_min l n = some (buildLoop is_min l n) := by
  intro n
  induction n with
  | zero => intro l; rfl
  | succ m ih =>
    intro l
    simp only [buildSafeLoop]
    rw [heapifyDownSafe_eq]
    simp only [Option.some_bind]
    rw [ih]
    simp only [Option.some_bind, buildLoop]

/-- Checked `build_heap` always succeeds and agrees with the total model. -/
lemma buildSafe_eq (is_min : Bool) (arr : List α) :
    buildSafe is_min arr = some (build_heap is_min arr) := by
  simp only [buildSafe]
  rw [buildSafeLoop_eq]
  simp only [Option.some_bind, build_heap]

/-! ### Termination bounds for the two sift loops -/

lemma upGo_events_le (is_min : Bool) :
    ∀ (fuel : Nat) (l : List α) (i : Nat),
      (heapifyUpGo is_min fuel l i).2.length ≤ i := by
  intro fuel
  induction fuel with
  | zero => intro l i; exact Nat.zero_le i
  | succ f ih =>
    intro l i
    simp only [heapifyUpGo]
    by_cases hi : i > 0
    · rw [if_pos hi]
      by_cases hc : cmpAt is_min l i ((i - 1) / 2) = true
      · rw [if_pos hc]
        have := ih (swapHeap l i ((i - 1) / 2)) ((i - 1) / 2)
        simp only [List.length_cons]
        omega
      · rw [if_neg hc]
        exact Nat.zero_le i
    · rw [if_neg hi]
      exact Nat.zero_le i

lemma upGo_events_shape (is_min : Bool) :
    ∀ (fuel : Nat) (l : List α) (i : Nat),
      ∀ p ∈ (heapifyUpGo is_min fuel l i).2, p.2 = (p.1 - 1) / 2 ∧ p.2 < p.1 := by
  intro fuel
  induction fuel with
  | zero => intro l i p hp; simp [heapifyUpGo] at hp
  | succ f ih =>
    intro l i p hp
    simp only [heapifyUpGo] at hp
    by_cases hi : i > 0
    · rw [if_pos hi] at hp
      by_cases hc : cmpAt is_min l i ((i - 1) / 2) = true
      · rw [if_pos hc] at hp
        simp only [List.mem_cons] at hp
        rcases hp with hp | hp
        · subst hp
          exact ⟨rfl, by omega⟩
        · exact ih _ _ p hp
      · rw [if_neg hc] at hp
        simp at hp
    · rw [if_neg hi] at hp
      simp at hp

lemma downGo_events_le (is_min : Bool) :
    ∀ (fuel : Nat) (l : List α) (i : Nat),
      (heapifyDownGo is_min fuel l i).2.length ≤ l.length - i := by
  intro fuel
  induction fuel with
  | zero => intro l i; exact Nat.zero_le _
  | succ f ih =>
    intro l i
    simp only [heapifyDownGo]
    by_cases hs : swapIdx is_min l i ≠ i
    · rw [if_pos hs]
      obtain ⟨-, hslen, -, -⟩ := swapIdx_spec hs
      obtain ⟨hlt, -⟩ := swapIdx_child_bounds hs
      have := ih (swapHeap l i (swapIdx is_min l i)) (swapIdx is_min l i)
      rw [swapHeap_length] at this
      simp only [List.length_cons]
      omega
    · rw [if_neg hs]
      exact Nat.zero_le _

lemma downGo_events_shape (is_min : Bool) :
    ∀ (fuel : Nat) (l : List α) (i : Nat),
      ∀ p ∈ (heapifyDownGo is_min fuel l i).2, p.1 < p.2 ∧ p.2 < l.length := by
  intro fuel
  induction fuel with
  | zero => intro l i p hp; simp [heapifyDownGo] at hp
  | succ f ih =>
    intro l i p hp
    simp only [heapifyDownGo] at hp
    by_cases hs : swapIdx is_min l i ≠ i
    · rw [if_pos hs] at hp
      obtain ⟨-, hslen, -, -⟩ := swapIdx_spec hs
      obtain ⟨hlt, -⟩ := swapIdx_child_bounds hs
      simp only [List.mem_cons] at hp
      rcases hp with hp | hp
      · subst hp
        exact ⟨hlt, hslen⟩
      · have := ih _ _ p hp
        rw [swapHeap_length] at this
        exact this
    · rw [if_neg hs] at hp
      simp at hp

/-! ### Behaviour of `build_heap` on an already heap-ordered list -/

lemma not_cmp_of_favors {is_min : Bool} {a b : α} (h : favors is_min a b) :
    cmpv is_min b a = false := by
  cases is_min <;> simp [cmpv, favors, not_lt] at h ⊢ <;> exact h

lemma swapIdx_of_HO {is_min : Bool} {l : List α} (h : HO is_min l) (j : Nat) :
    swapIdx is_min l j = j := by
  by_cases hs : swapIdx is_min l j = j
  · exact hs
  · exfalso
    obtain ⟨hchild, hslen, hcmp, -⟩ := swapIdx_spec hs
    obtain ⟨hjlt, hjlen⟩ := swapIdx_child_bounds hs
    obtain ⟨xj, hxj⟩ := exists_getElem?_of_lt hjlen
    obtain ⟨xs, hxs⟩ := exists_getElem?_of_lt hslen
    have hfav : favors is_min xj xs := h j _ hchild xj xs hxj hxs
    rw [cmpAt_eq hxs hxj, not_cmp_of_favors hfav] at hcmp
    simp at hcmp

lemma buildLoop_id {is_min : Bool} {l : List α} (h : HO is_min l) :
    ∀ n, buildLoop is_min l n = (l, []) := by
  intro n
  induction n with
  | zero => rfl
  | succ m ih =>
    simp only [buildLoop]
    rw [heapify_down_stop (swapIdx_of_HO h m)]
    simp only
    rw [ih]
    simp

/-- The claim-facing invariant and the proof-facing one agree. -/
lemma heapOrdered_iff (is_min : Bool) (l : List α) :
    heapOrdered is_min l ↔ HO is_min l := by
  constructor
  · intro h p c hcc x y hx hy
    obtain ⟨hplen, hxv⟩ := List.getElem?_eq_some.mp hx
    obtain ⟨hclen, hyv⟩ := List.getElem?_eq_some.mp hy
    have := h ⟨p, hplen⟩ ⟨c, hclen⟩ hcc
    simp only [List.get_eq_getElem] at this
    rw [hxv, hyv] at this
    exact this
  · intro h p c hcc
    have hx : l[(p : Nat)]? = some (l.get p) := by
      rw [List.get_eq_getElem]
      exact List.getElem?_eq_getElem p.2
    have hy : l[(c : Nat)]? = some (l.get c) := by
      rw [List.get_eq_getElem]
      exact List.getElem?_eq_getElem c.2
    exact h p c hcc _ _ hx hy

/-! ### The claims -/

/-- Claim C1: for either polarity and every finite sequence of
build/insert/deleteRoot operations (started, as in the source, from the empty
heap), after each operation completes every index `i` whose child index
`c ∈ {2i+1, 2i+2}` exists satisfies the heap-order comparison:
`elements[i] ≤ elements[c]` for MIN, `elements[i] ≥ elements[c]` for MAX. -/
theorem claim_C1_heap_order_invariant (is_min : Bool) (ops : List (Op Int)) :
    heapOrdered is_min (runOps is_min ops) :=
  (heapOrdered_iff is_min _).mpr (runOps_HO is_min ops)

/-- Claim C2: for every finite multiset of integers (given as a list) and
either polarity, after `build_heap` the values returned by `|S|` successive
`delete_root` calls are exactly the input values in fully sorted order
(ascending for MIN, descending for MAX), the heap is then empty, and the next
`delete_root` call signals `EmptyHeap` (returns `None`, no mutation, no
event). -/
theorem claim_C2_extraction_sorted (is_min : Bool) (arr : List Int) :
    (extractN is_min arr.length (AnimatedHeap.build_heap is_min arr).1).1.Perm arr ∧
      (if is_min then
        List.Sorted (fun x y : Int => x ≤ y)
          (extractN is_min arr.length (AnimatedHeap.build_heap is_min arr).1).1
      else
        List.Sorted (fun x y : Int => y ≤ x)
          (extractN is_min arr.length (AnimatedHeap.build_heap is_min arr).1).1) ∧
      AnimatedHeap.delete_root is_min
        (extractN is_min arr.length (AnimatedHeap.build_heap is_min arr).1).2 =
        (none, [], []) := by
  have hHO : HO is_min (AnimatedHeap.build_heap is_min arr).1 := build_heap_HO is_min arr
  have hlen : arr.length = ((AnimatedHeap.build_heap is_min arr).1).length :=
    (build_heap_length is_min arr).symm
  obtain ⟨hperm, hpair, hfin⟩ :=
    extract_spec arr.length (AnimatedHeap.build_heap is_min arr).1 hHO hlen
  refine ⟨hperm.trans (build_heap_perm is_min arr), ?_, ?_⟩
  · cases is_min
    · simp only [Bool.false_eq_true, if_false]
      exact hpair.imp (fun h => by simpa [favors] using h)
    · simp only [if_true]
      exact hpair.imp (fun h => by simpa [favors] using h)
  · rw [hfin]
    rfl

/-- Claim C3: the multiset of stored values tracks the operations exactly:
`build_heap` replaces the content with exactly the input multiset, `insert`
adds exactly the inserted value, `delete_root` on a non-empty heap removes
exactly the one value it returns, and `delete_root` returns `None` only on
the empty heap (leaving it empty); no values are invented or lost. -/
theorem claim_C3_multiset_preservation (is_min : Bool) :
    (∀ arr : List Int,
      ((AnimatedHeap.build_heap is_min arr).1 : Multiset Int) = (arr : Multiset Int)) ∧
      (∀ (l : List Int) (v : Int),
        ((AnimatedHeap.insert is_min l v).1 : Multiset Int) = v ::ₘ (l : Multiset Int)) ∧
      (∀ (l l' : List Int) (r : Int) (evs : List (Nat × Nat)),
        AnimatedHeap.delete_root is_min l = (some r, l', evs) →
        r ::ₘ (l' : Multiset Int) = (l : Multiset Int)) ∧
      (∀ (l l' : List Int) (evs : List (Nat × Nat)),
        AnimatedHeap.delete_root is_min l = (none, l', evs) → l = [] ∧ l' = []) := by
  refine ⟨?_, ?_, ?_, ?_⟩
  · intro arr
    exact Multiset.coe_eq_coe.mpr (build_heap_perm is_min arr)
  · intro l v
    have h1 : (AnimatedHeap.insert is_min l v).1.Perm (v :: l) :=
      (insert_perm is_min l v).trans (List.perm_append_singleton v l)
    have h2 := Multiset.coe_eq_coe.mpr h1
    simpa using h2
  · intro l l' r evs hd
    cases l with
    | nil =>
      exfalso
      have h1 : (AnimatedHeap.delete_root is_min ([] : List Int)).1 = some r :=
        congrArg Prod.fst hd
      simp [AnimatedHeap.delete_root] at h1
    | cons x xs =>
      have hr : x = r := by
        have h1 : (AnimatedHeap.delete_root is_min (x :: xs)).1 = some r :=
          congrArg Prod.fst hd
        rw [delete_root_fst] at h1
        exact Option.some.inj h1
      have hl' : (AnimatedHeap.delete_root is_min (x :: xs)).2.1 = l' :=
        congrArg (fun t => t.2.1) hd
      rw [← hl', ← hr]
      exact delete_root_multiset is_min x xs
  · intro l l' evs hd
    cases l with
    | nil =>
      refine ⟨rfl, ?_⟩
      have h1 : (AnimatedHeap.delete_root is_min ([] : List Int)).2.1 = l' :=
        congrArg (fun t => t.2.1) hd
      simpa [AnimatedHeap.delete_root] using h1.symm
    | cons x xs =>
      exfalso
      have h1 : (AnimatedHeap.delete_root is_min (x :: xs)).1 = none :=
        congrArg Prod.fst hd
      rw [delete_root_fst] at h1
      simp at h1

/-- Witness for claim C3: deleting the root of the one-element heap `[3]`
removes exactly the returned value `3`. -/
theorem claim_C3_witness :
    (3 : Int) ::ₘ (([] : List Int) : Multiset Int) = (([3] : List Int) : Multiset Int) :=
  (claim_C3_multiset_preservation true).2.2.1 [3] [] 3 [] rfl

/-- Claim C4: `insert` increases the length of `elements` by exactly 1;
`delete_root` on a non-empty heap decreases it by exactly 1; `delete_root`
on the empty heap leaves the length at 0 and signals `EmptyHeap`. -/
theorem claim_C4_size_accounting (is_min : Bool) (l : List Int) (v : Int) :
    (AnimatedHeap.insert is_min l v).1.length = l.length + 1 ∧
      (l ≠ [] → (AnimatedHeap.delete_root is_min l).2.1.length + 1 = l.length) ∧
      AnimatedHeap.delete_root is_min ([] : List Int) = (none, [], []) := by
  refine ⟨insert_length is_min l v, ?_, rfl⟩
  intro h
  cases l with
  | nil => exact absurd rfl h
  | cons x xs =>
    rw [delete_root_length]
    simp

/-- Witness for claim C4: deleting the root of `[5, 7]` shrinks it from
length 2 to length 1. -/
theorem claim_C4_witness :
    (AnimatedHeap.delete_root true ([5, 7] : List Int)).2.1.length + 1 =
      ([5, 7] : List Int).length :=
  (claim_C4_size_accounting true [5, 7] 0).2.1 (by decide)

/-- Claim C5: `delete_root` on an empty heap signals `EmptyHeap` (returns
`None`), leaves `elements` completely unchanged, and emits no state event. -/
theorem claim_C5_empty_delete (is_min : Bool) :
    AnimatedHeap.delete_root is_min ([] : List Int) = (none, [], []) := rfl

/-- Claim C6: in a sift-down step the left child is checked first and the
right child replaces the already-selected candidate only when it strictly
precedes that candidate; in particular, when both children exist, compare
equal, and strictly precede the parent, the exchange is performed with the
left child. -/
theorem claim_C6_tiebreak (is_min : Bool) (l : List Int) (i : Nat) (x y px : Int) :
    (swapIdx is_min l i = 2 * i + 2 →
      cmpAt is_min l (2 * i + 2) (cand1 is_min l i) = true) ∧
      (l[2 * i + 1]? = some x → l[2 * i + 2]? = some y → x = y →
        l[i]? = some px → cmpv is_min x px = true →
        swapIdx is_min l i = 2 * i + 1 ∧
          (heapify_down is_min l i).2.head? = some (i, 2 * i + 1)) := by
  constructor
  · intro hsw
    unfold swapIdx at hsw
    by_cases h : (2 * i + 2 < l.length &&
        cmpAt is_min l (2 * i + 2) (cand1 is_min l i)) = true
    · rw [Bool.and_eq_true] at h
      exact h.2
    · rw [if_neg h] at hsw
      exfalso
      rcases cand1_cases is_min l i with h' | ⟨h', -, -⟩ <;> omega
  · intro hx hy hxy hpx hcmp
    have hLlen : 2 * i + 1 < l.length := getElem?_some_lt hx
    have hc1 : cand1 is_min l i = 2 * i + 1 := by
      unfold cand1
      rw [if_pos]
      rw [Bool.and_eq_true, decide_eq_true_eq]
      exact ⟨hLlen, by rw [cmpAt_eq hx hpx]; exact hcmp⟩
    have hsw : swapIdx is_min l i = 2 * i + 1 := by
      unfold swapIdx
      rw [hc1, if_neg]
      intro hcontra
      rw [Bool.and_eq_true] at hcontra
      have h2 := hcontra.2
      rw [cmpAt_eq hy hx] at h2
      rw [← hxy] at h2
      rw [cmp_self] at h2
      simp at h2
    refine ⟨hsw, ?_⟩
    have hne : swapIdx is_min l i ≠ i := by rw [hsw]; omega
    rw [heapify_down_step hne, hsw]
    rfl

/-- Witness for claim C6: on the MIN heap array `[5, 2, 2]` the two equal
children `2` both precede the parent `5`, and the exchange happens with the
left child (index 1). -/
theorem claim_C6_witness :
    swapIdx true ([5, 2, 2] : List Int) 0 = 2 * 0 + 1 ∧
      (heapify_down true ([5, 2, 2] : List Int) 0).2.head? = some (0, 2 * 0 + 1) :=
  (claim_C6_tiebreak true [5, 2, 2] 0 2 2 5).2 (by decide) (by decide) rfl
    (by decide) (by decide)

/-- Claim C7: building from a sequence that already satisfies heap order
performs zero sift-down exchanges — the emitted events are exactly the one
initial raw-layout event — and leaves the element sequence unchanged. -/
theorem claim_C7_build_idempotent (is_min : Bool) (l : List Int)
    (h : heapOrdered is_min l) :
    (AnimatedHeap.build_heap is_min l).1 = l ∧
      (AnimatedHeap.build_heap is_min l).2 = [none] := by
  have hHO : HO is_min l := (heapOrdered_iff is_min l).mp h
  unfold AnimatedHeap.build_heap
  rw [buildLoop_id hHO]
  exact ⟨rfl, rfl⟩

/-- Witness for claim C7: `[1, 2, 3]` is already MIN heap ordered and
building from it changes nothing and emits only the raw-layout event. -/
theorem claim_C7_witness :
    (AnimatedHeap.build_heap true ([1, 2, 3] : List Int)).1 = [1, 2, 3] ∧
      (AnimatedHeap.build_heap true ([1, 2, 3] : List Int)).2 = [none] :=
  claim_C7_build_idempotent true [1, 2, 3] (by decide)

/-- Claim C8: building a MIN heap from `[10,20,15,30,40,1,6,55,90,87]` yields
an array satisfying MIN heap order, ten successive `delete_root` calls return
exactly `1,6,10,15,20,30,40,55,87,90` in that order, and the eleventh call
signals `EmptyHeap`. -/
theorem claim_C8_concrete_scenario :
    heapOrdered true
      ((AnimatedHeap.build_heap true ([10, 20, 15, 30, 40, 1, 6, 55, 90, 87] : List Int)).1) ∧
      (extractN true 10
        ((AnimatedHeap.build_heap true
          ([10, 20, 15, 30, 40, 1, 6, 55, 90, 87] : List Int)).1)).1 =
        [1, 6, 10, 15, 20, 30, 40, 55, 87, 90] ∧
      AnimatedHeap.delete_root true
        ((extractN true 10
          ((AnimatedHeap.build_heap true
            ([10, 20, 15, 30, 40, 1, 6, 55, 90, 87] : List Int)).1)).2) =
        (none, [], []) := by
  decide

/-- Claim C9: every list index used by sift-up, sift-down and `delete_root`
is in bounds: the checked variants — in which every subscript is a fallible
lookup and position 0 is written only under the non-emptiness guard — always
succeed and agree with the total model, for every heap state (and for
sift-up, for every in-range start index; `insert` always calls it on one). -/
theorem claim_C9_index_safety (is_min : Bool) (l : List Int) (i : Nat) (v : Int) :
    heapifyDownSafe is_min l i = some (heapify_down is_min l i) ∧
      insertSafe is_min l v = some (AnimatedHeap.insert is_min l v) ∧
      delete_rootSafe is_min l = some (AnimatedHeap.delete_root is_min l) ∧
      buildSafe is_min l = some (AnimatedHeap.build_heap is_min l) ∧
      (i < l.length → heapifyUpSafe is_min l i = some (heapify_up is_min l i)) :=
  ⟨heapifyDownSafe_eq is_min l i, insertSafe_eq is_min l v,
    delete_rootSafe_eq is_min l, buildSafe_eq is_min l,
    fun h => heapifyUpSafe_eq is_min l i (Or.inl h)⟩

/-- Witness for claim C9: checked sift-up from index 1 of `[4, 9]` succeeds
and agrees with the total model. -/
theorem claim_C9_witness :
    heapifyUpSafe true ([4, 9] : List Int) 1 = some (heapify_up true ([4, 9] : List Int) 1) :=
  (claim_C9_index_safety true [4, 9] 1 0).2.2.2.2 (by decide)

/-- Claim C10: both sift loops terminate on every finite heap state: sift-up
performs at most `index` exchanges, each moving to the strictly smaller
parent `(index - 1) / 2`; sift-down performs at most `length - index`
exchanges, each moving to a strictly larger index below the heap length.
Hence `build_heap`, `insert` and `delete_root` are total. -/
theorem claim_C10_termination (is_min : Bool) (l : List Int) (i : Nat) :
    (heapify_up is_min l i).2.length ≤ i ∧
      (heapify_down is_min l i).2.length ≤ l.length - i ∧
      (∀ p ∈ (heapify_up is_min l i).2, p.2 = (p.1 - 1) / 2 ∧ p.2 < p.1) ∧
      (∀ p ∈ (heapify_down is_min l i).2, p.1 < p.2 ∧ p.2 < l.length) :=
  ⟨upGo_events_le is_min i l i, downGo_events_le is_min l.length l i,
    fun p hp => upGo_events_shape is_min i l i p hp,
    fun p hp => downGo_events_shape is_min l.length l i p hp⟩

/-- Witness for claim C10: the one exchange performed by sift-up from index 1
of `[3, 1]` moves to the parent `(1 - 1) / 2 = 0 < 1`. -/
theorem claim_C10_witness :
    ((1, 0) : Nat × Nat).2 = (((1, 0) : Nat × Nat).1 - 1) / 2 ∧
      ((1, 0) : Nat × Nat).2 < ((1, 0) : Nat × Nat).1 :=
  (claim_C10_termination true [3, 1] 1).2.2.1 (1, 0) (by decide)

end HeapViz
